import Mathlib

/-!
Verification of the lazy chunked-array access layer specified for the
hrrr-zarr notebook repository.  The repository's only source file is a
notebook of library calls (open a Zarr store, derive
`windspeed = sqrt(u^2 + v^2)`, reduce `max` over the `time` dimension,
persist the result); the lazy-array layer itself is provided by external
libraries and is not part of the source tree, so the definitions below are
modelled from the specification's data model (§3), component contracts
(§4) and execution algorithm (§4.3).
-/

namespace LazyZarr

/-- Modelled from the spec: a chunk is addressed deterministically by
(storage location, variable name, chunk coordinate) (§3 Chunk). -/
abbrev ChunkAddr : Type := String × String × List Nat

/-- Modelled from the spec: a materialized concrete array — ordered
dimension names, per-dimension sizes, and element data indexed by a
per-dimension index tuple. -/
structure ConcreteArray (α : Type) where
  dims : List String
  sizes : List Nat
  data : List Nat → α

/-- Modelled from the spec: a Lazy Array computation node — either a leaf
("load chunk set from storage location") carrying the manifest metadata,
or an internal node applying a pure function to operand nodes
(elementwise arithmetic or reduction along a named dimension) (§3, §9).
Operations are identified by symbols of type `ι` so that nodes have
decidable structural identity for the persisted-result cache. -/
inductive Node (ι : Type) where
  | leaf (loc v : String) (dims : List String) (sizes chunkSizes : List Nat)
  | ewise (op : ι) (a b : Node ι)
  | reduceN (op : ι) (dim : String) (a : Node ι)
deriving DecidableEq

variable {ι : Type} {α : Type} {β : Type}

/-- Position of a dimension name in an ordered dimension list. -/
def posOf (d : String) : List String → Nat
  | [] => 0
  | x :: xs => if x = d then 0 else posOf d xs + 1

/-- Modelled from the spec: the dimension names of a node; elementwise
preserves shape, reduction drops the named dimension (§4.2). -/
def Node.dims : Node ι → List String
  | Node.leaf _ _ ds _ _ => ds
  | Node.ewise _ a _ => a.dims
  | Node.reduceN _ d a => a.dims.eraseIdx (posOf d a.dims)

/-- Modelled from the spec: the per-dimension sizes of a node (§4.2). -/
def Node.sizes : Node ι → List Nat
  | Node.leaf _ _ _ szs _ => szs
  | Node.ewise _ a _ => a.sizes
  | Node.reduceN _ d a => a.sizes.eraseIdx (posOf d a.dims)

/-- Modelled from the spec: the per-dimension chunk sizes of a node;
elementwise keeps the operand chunk shape (no rechunking), reduction
drops the reduced dimension (§4.2). -/
def Node.chunkSizes : Node ι → List Nat
  | Node.leaf _ _ _ _ cs => cs
  | Node.ewise _ a _ => a.chunkSizes
  | Node.reduceN _ d a => a.chunkSizes.eraseIdx (posOf d a.dims)

/-- Combine a list of values with a binary operation, seeding the fold
with the first element (used for chunk-local pre-reduction and for the
cross-chunk combine step). -/
def reduce1 [Inhabited α] (f : α → α → α) : List α → α
  | [] => default
  | x :: xs => xs.foldl f x

/-- Split a list into contiguous chunks of size `s` (the last chunk may
be shorter); every produced chunk is nonempty. -/
def chunksOf (s : Nat) : List β → List (List β)
  | [] => []
  | x :: xs => (x :: xs.take (s - 1)) :: chunksOf s (xs.drop (s - 1))
termination_by l => l.length
decreasing_by simp; omega

/-- Associativity of a binary operation, as a proposition. -/
def Assoc (f : α → α → α) : Prop := ∀ x y z, f (f x y) z = f x (f y z)

/-- Commutativity of a binary operation, as a proposition. -/
def Comm (f : α → α → α) : Prop := ∀ x y, f x y = f y x

/-- A simulated fetch-completion schedule: it may reorder the per-chunk
partial results before the combine step but delivers exactly the computed
results (a permutation), reflecting that concurrently fetched chunks
complete in no guaranteed order (§5). -/
def SchedOK (sched : List α → List α) : Prop := ∀ l : List α, (sched l).Perm l

/-- Every reduction operation appearing in a node is associative. -/
def AssocOps (interp : ι → α → α → α) : Node ι → Prop
  | Node.leaf _ _ _ _ _ => True
  | Node.ewise _ a b => AssocOps interp a ∧ AssocOps interp b
  | Node.reduceN op _ a => Assoc (interp op) ∧ AssocOps interp a

/-- Every reduction operation appearing in a node is associative and
commutative, as the design assumes for max/sum-style reductions (§4.2). -/
def GoodOps (interp : ι → α → α → α) : Node ι → Prop
  | Node.leaf _ _ _ _ _ => True
  | Node.ewise _ a b => GoodOps interp a ∧ GoodOps interp b
  | Node.reduceN op _ a => (Assoc (interp op) ∧ Comm (interp op)) ∧ GoodOps interp a

/-- Modelled from the spec: chunked evaluation of a computation graph
(§4.3 map-then-reduce).  Leaves read element values from storage;
elementwise operations apply per element; a reduction along dimension `d`
performs chunk-local partial reduction over each chunk of the reduced
axis and then combines the per-chunk partial results, in the order the
simulated schedule `sched` delivers them. -/
def evalD [Inhabited α] (interp : ι → α → α → α) (store : String → String → List Nat → α)
    (sched : List α → List α) : Node ι → List Nat → α
  | Node.leaf loc v _ _ _ => fun ix => store loc v ix
  | Node.ewise op a b => fun ix =>
      interp op (evalD interp store sched a ix) (evalD interp store sched b ix)
  | Node.reduceN op d a => fun ix =>
      let p := posOf d a.dims
      let n := a.sizes.getD p 0
      let s := a.chunkSizes.getD p 1
      reduce1 (interp op)
        (sched ((chunksOf s (List.range n)).map
          (fun ch => reduce1 (interp op)
            (ch.map (fun t => evalD interp store sched a (ix.insertIdx p t))))))

/-- Modelled from the spec: the naive reference semantics — a reduction
folds the whole reduced axis in index order with no chunk-local
pre-reduction and no reordering (the "naive unchunked reduction" a
chunked evaluation must refine). -/
def evalNaive [Inhabited α] (interp : ι → α → α → α)
    (store : String → String → List Nat → α) : Node ι → List Nat → α
  | Node.leaf loc v _ _ _ => fun ix => store loc v ix
  | Node.ewise op a b => fun ix =>
      interp op (evalNaive interp store a ix) (evalNaive interp store b ix)
  | Node.reduceN op d a => fun ix =>
      let p := posOf d a.dims
      let n := a.sizes.getD p 0
      reduce1 (interp op)
        ((List.range n).map (fun t => evalNaive interp store a (ix.insertIdx p t)))

/-- Modelled from the spec: materializing a node produces the concrete
array whose data is the chunked evaluation of its graph (§4.3). -/
def materializePure [Inhabited α] (interp : ι → α → α → α)
    (store : String → String → List Nat → α) (sched : List α → List α)
    (n : Node ι) : ConcreteArray α :=
  ⟨n.dims, n.sizes, evalD interp store sched n⟩

/-- Modelled from the spec: the naive reference materialization, for
comparison with the chunked one. -/
def materializeNaive [Inhabited α] (interp : ι → α → α → α)
    (store : String → String → List Nat → α) (n : Node ι) : ConcreteArray α :=
  ⟨n.dims, n.sizes, evalNaive interp store n⟩

/-- Pointwise application of a binary operation to two concrete arrays of
identical shape. -/
def pointwiseApply (f : α → α → α) (A B : ConcreteArray α) : ConcreteArray α :=
  ⟨A.dims, A.sizes, fun ix => f (A.data ix) (B.data ix)⟩

/-- The per-chunk partial results of a reduction, combined across chunks
in canonical chunk order: chunk-local pre-reduction along the reduced
axis followed by the cross-chunk combine (§4.3). -/
def perChunkReduce [Inhabited α] (interp : ι → α → α → α)
    (store : String → String → List Nat → α) (op : ι) (d : String)
    (a : Node ι) (ix : List Nat) : α :=
  let p := posOf d a.dims
  reduce1 (interp op)
    ((chunksOf (a.chunkSizes.getD p 1) (List.range (a.sizes.getD p 0))).map
      (fun ch => reduce1 (interp op)
        (ch.map (fun t => evalD interp store id a (ix.insertIdx p t)))))

/-- Modelled from the spec: the error taxonomy (§7). -/
inductive ArrError where
  | StorageUnavailable
  | MetadataCorrupt
  | VariableNotFound (name : String)
  | ShapeMismatch
  | DimensionNotFound (dim : String)
  | ChunkFetchFailed (addr : ChunkAddr)
deriving DecidableEq

/-- Modelled from the spec: per-variable manifest metadata — dimension
names, sizes and chunk layout (§6 Storage collaborator). -/
structure VarMeta where
  dims : List String
  sizes : List Nat
  chunkSizes : List Nat
deriving DecidableEq

/-- Modelled from the spec: a manifest lists the variables of a dataset
with their metadata (§6). -/
structure Manifest where
  vars : List (String × VarMeta)
deriving DecidableEq

/-- Modelled from the spec: a Dataset Handle — a storage location plus
the catalog parsed from its manifest; immutable after construction (§3). -/
structure DatasetHandle where
  location : String
  catalog : List (String × VarMeta)
deriving DecidableEq

/-- Modelled from the spec: the external storage collaborator — manifest
retrieval (which may fail with `StorageUnavailable` or
`MetadataCorrupt`), per-chunk fetchability, and the element values the
stored chunks decode to (§6). -/
structure Store (α : Type) where
  manifest : String → Except ArrError Manifest
  okAddr : ChunkAddr → Bool
  val : String → String → List Nat → α

/-- Modelled from the spec: materialization mode (§4.3). -/
inductive Mode where
  | ephemeral
  | persisted
deriving DecidableEq

/-- Modelled from the spec: the process-wide state threaded through
`materialize` — the persisted-result cache keyed by node identity, and a
log of every chunk fetch issued to storage (§4.3, §5). -/
structure MatState (ι α : Type) where
  cache : List (Node ι × ConcreteArray α)
  fetchLog : List ChunkAddr

/-- Number of chunks covering a dimension of size `sz` with chunk size
`c`. -/
def numChunks (sz c : Nat) : Nat := (sz + c - 1) / c

/-- All coordinate tuples of a rectangular grid with the given
per-dimension extents. -/
def gridCoords : List Nat → List (List Nat)
  | [] => [[]]
  | n :: ns => ((List.range n).map (fun i => (gridCoords ns).map (i :: ·))).flatten

/-- The chunk-coordinate grid of a leaf with the given sizes and chunk
sizes. -/
def leafChunkGrid (sizes chunkSizes : List Nat) : List (List Nat) :=
  gridCoords (List.zipWith numChunks sizes chunkSizes)

/-- Modelled from the spec: the minimal set of leaf chunk addresses a
graph walk enumerates for a node — every chunk of every leaf below it,
with duplicates removed (§4.3). -/
def requiredChunks : Node ι → List ChunkAddr
  | Node.leaf loc v _ szs cs => (leafChunkGrid szs cs).map (fun coord => (loc, v, coord))
  | Node.ewise _ a b => (requiredChunks a ++ requiredChunks b).dedup
  | Node.reduceN _ _ a => requiredChunks a

/-- Modelled from the spec: `open(storage_location)` — manifest/metadata
retrieval only, no chunk data transfer (§4.1).  Threaded through the
materialization state to make the absence of chunk I/O observable. -/
def openDataset (store : Store α) (loc : String) (st : MatState ι α) :
    Except ArrError DatasetHandle × MatState ι α :=
  (match store.manifest loc with
   | Except.error e => Except.error e
   | Except.ok m => Except.ok ⟨loc, m.vars⟩, st)

/-- Modelled from the spec: `get_variable(name)` — catalog lookup
yielding a leaf node, or `VariableNotFound`; side-effect-free (§4.1). -/
def getVariable (h : DatasetHandle) (name : String) (st : MatState ι α) :
    Except ArrError (Node ι) × MatState ι α :=
  (match h.catalog.find? (fun p => decide (p.1 = name)) with
   | some p => Except.ok (Node.leaf h.location name p.2.dims p.2.sizes p.2.chunkSizes)
   | none => Except.error (ArrError.VariableNotFound name), st)

/-- Modelled from the spec: `elementwise(op, A, B)` — operands must have
identical shape, else `ShapeMismatch`; purely structural, no evaluation
(§4.2). -/
def elementwise (op : ι) (a b : Node ι) : Except ArrError (Node ι) :=
  if a.dims = b.dims ∧ a.sizes = b.sizes then Except.ok (Node.ewise op a b)
  else Except.error ArrError.ShapeMismatch

/-- Modelled from the spec: `reduce(op, dim)` — `dim` must be a named
dimension present in the array, else `DimensionNotFound`; purely
structural (§4.2). -/
def reduce (op : ι) (d : String) (a : Node ι) : Except ArrError (Node ι) :=
  if d ∈ a.dims then Except.ok (Node.reduceN op d a)
  else Except.error (ArrError.DimensionNotFound d)

/-- The elementwise constructor threaded through the materialization
state, making its freedom from I/O observable. -/
def elementwiseC (op : ι) (a b : Node ι) (st : MatState ι α) :
    Except ArrError (Node ι) × MatState ι α :=
  (elementwise op a b, st)

/-- The reduce constructor threaded through the materialization state,
making its freedom from I/O observable. -/
def reduceC (op : ι) (d : String) (a : Node ι) (st : MatState ι α) :
    Except ArrError (Node ι) × MatState ι α :=
  (reduce op d a, st)

/-- Lookup in the persisted-result cache by structural node identity. -/
def cacheLookup [DecidableEq ι] (c : List (Node ι × ConcreteArray α)) (n : Node ι) :
    Option (ConcreteArray α) :=
  (c.find? (fun p => decide (p.1 = n))).map Prod.snd

/-- Modelled from the spec: `materialize(array, mode)` (§4.3).  The
cache is consulted first (a hit returns the retained value with no
fetch); otherwise the graph walk enumerates the required leaf chunks,
all of them are fetched (logged), a single failing chunk aborts the call
with `ChunkFetchFailed` naming that chunk and no partial result, and on
success the chunked evaluation is returned, retained in the cache when
the mode is `persisted`. -/
def materializeSt [Inhabited α] [DecidableEq ι] (interp : ι → α → α → α)
    (store : Store α) (mode : Mode) (n : Node ι) (st : MatState ι α) :
    Except ArrError (ConcreteArray α) × MatState ι α :=
  match cacheLookup st.cache n with
  | some v => (Except.ok v, st)
  | none =>
    match (requiredChunks n).find? (fun a => !store.okAddr a) with
    | some a =>
        (Except.error (ArrError.ChunkFetchFailed a),
         { st with fetchLog := st.fetchLog ++ requiredChunks n })
    | none =>
        let v := materializePure interp store.val id n
        (Except.ok v,
         { cache := match mode with
             | Mode.persisted => (n, v) :: st.cache
             | Mode.ephemeral => st.cache,
           fetchLog := st.fetchLog ++ requiredChunks n })

/-- Operation symbols used by the notebook's graph: `speed` is the
elementwise `sqrt(u^2 + v^2)` and `maxW` is the reduction operation of
`windspeed.max(dim='time')`. -/
inductive WOp where
  | speed
  | maxW
deriving DecidableEq

/-- Interpretation of the notebook's operation symbols over the reals:
`speed` maps wind components `u`, `v` to `sqrt(u^2 + v^2)` and `maxW` is
the binary maximum. -/
noncomputable def wInterp : WOp → ℝ → ℝ → ℝ
  | WOp.speed => fun u v => Real.sqrt (u ^ 2 + v ^ 2)
  | WOp.maxW => fun x y => max x y

/-- The u wind-component leaf of the notebook's dataset, with the
(time, y, x) shape and time-chunked layout of the spec's end-to-end
scenario (§8). -/
def uLeaf : Node WOp :=
  Node.leaf "s3://esip-pangeo-uswest2/pangeo/EPIC/hrrr_zarr"
    "u-component_of_wind_height_above_ground" ["time", "y", "x"] [4, 2, 2] [2, 2, 2]

/-- The v wind-component leaf of the notebook's dataset. -/
def vLeaf : Node WOp :=
  Node.leaf "s3://esip-pangeo-uswest2/pangeo/EPIC/hrrr_zarr"
    "v-component_of_wind_height_above_ground" ["time", "y", "x"] [4, 2, 2] [2, 2, 2]

/-- The notebook's `windspeed = np.sqrt(u**2 + v**2)` graph node. -/
def windspeedNode : Node WOp := Node.ewise WOp.speed uLeaf vLeaf

/-- The notebook's `wind_max = windspeed.max(dim='time')` graph node. -/
def windMaxNode : Node WOp := Node.reduceN WOp.maxW "time" windspeedNode

/-- Sample variable metadata for concrete instantiations. -/
def sampleMeta : VarMeta := ⟨["time", "y", "x"], [4, 2, 2], [2, 2, 2]⟩

/-- Sample dataset handle with a one-variable catalog. -/
def sampleHandle : DatasetHandle := ⟨"s3://bucket/ds", [("temp", sampleMeta)]⟩

/-- Sample leaf node over the integers, for concrete instantiations. -/
def intLeaf : Node Unit := Node.leaf "s3://bucket/ds" "temp" ["time", "y", "x"] [4, 2, 2] [2, 2, 2]

/-- Sample maximum-reduction interpretation over the integers. -/
def intMax : Unit → ℤ → ℤ → ℤ := fun _ x y => max x y

/-- Sample store on which every chunk fetch succeeds. -/
def goodStore : Store ℤ :=
  ⟨fun _ => Except.ok ⟨[("temp", sampleMeta)]⟩, fun _ => true, fun _ _ _ => 0⟩

/-- Sample store on which every chunk fetch fails. -/
def badStore : Store ℤ :=
  ⟨fun _ => Except.ok ⟨[("temp", sampleMeta)]⟩, fun _ => false, fun _ _ _ => 0⟩

/-- The empty materialization state: empty cache, no fetches logged. -/
def emptyState : MatState Unit ℤ := ⟨[], []⟩

/-! Helper lemmas about folds, chunk splitting and permutations. -/

theorem foldl_assoc' {f : α → α → α} (hA : Assoc f) :
    ∀ (l : List α) (a b : α), l.foldl f (f a b) = f a (l.foldl f b)
  | [], _, _ => rfl
  | c :: l, a, b => by
    simp only [List.foldl_cons]
    rw [hA a b c]
    exact foldl_assoc' hA l a (f b c)

theorem reduce1_cons [Inhabited α] {f : α → α → α} (hA : Assoc f) (a : α)
    {l : List α} (hl : l ≠ []) : reduce1 f (a :: l) = f a (reduce1 f l) := by
  cases l with
  | nil => exact absurd rfl hl
  | cons y ys => simpa [reduce1] using foldl_assoc' hA ys a y

theorem reduce1_append [Inhabited α] {f : α → α → α} (hA : Assoc f)
    {l₁ l₂ : List α} (h₁ : l₁ ≠ []) (h₂ : l₂ ≠ []) :
    reduce1 f (l₁ ++ l₂) = f (reduce1 f l₁) (reduce1 f l₂) := by
  cases l₁ with
  | nil => exact absurd rfl h₁
  | cons x xs =>
    cases l₂ with
    | nil => exact absurd rfl h₂
    | cons y ys =>
      simp only [reduce1, List.cons_append, List.foldl_append, List.foldl_cons]
      exact foldl_assoc' hA ys (List.foldl f x xs) y

theorem flatten_ne_nil_of_head {c : List β} {L : List (List β)} (hc : c ≠ []) :
    (c :: L).flatten ≠ [] := by
  cases c with
  | nil => exact absurd rfl hc
  | cons x xs => simp

theorem reduce1_flatten [Inhabited α] {f : α → α → α} (hA : Assoc f) :
    ∀ {L : List (List α)}, (∀ c ∈ L, c ≠ []) →
      reduce1 f (L.map (reduce1 f)) = reduce1 f L.flatten
  | [], _ => rfl
  | c :: L, h => by
    have hc : c ≠ [] := h c (List.mem_cons_self c L)
    cases L with
    | nil => simp [reduce1]
    | cons d L' =>
      have hd : d ≠ [] := h d (by simp)
      have hrest : ∀ e ∈ d :: L', e ≠ [] := fun e he => h e (List.mem_cons_of_mem c he)
      have hflat : (d :: L').flatten ≠ [] := flatten_ne_nil_of_head hd
      have hmap : ((d :: L').map (reduce1 f)) ≠ [] := by simp
      calc reduce1 f ((c :: d :: L').map (reduce1 f))
          = f (reduce1 f c) (reduce1 f ((d :: L').map (reduce1 f))) := by
            simpa using reduce1_cons hA (reduce1 f c) hmap
        _ = f (reduce1 f c) (reduce1 f ((d :: L').flatten)) := by
            rw [reduce1_flatten hA hrest]
        _ = reduce1 f (c ++ (d :: L').flatten) := (reduce1_append hA hc hflat).symm
        _ = reduce1 f ((c :: d :: L').flatten) := by simp

theorem chunksOf_flatten (s : Nat) (l : List β) : (chunksOf s l).flatten = l := by
  induction l using chunksOf.induct s with
  | case1 => simp [chunksOf]
  | case2 x xs ih => simp [chunksOf, ih]

theorem chunksOf_ne_nil (s : Nat) (l : List β) : ∀ c ∈ chunksOf s l, c ≠ [] := by
  induction l using chunksOf.induct s with
  | case1 => simp [chunksOf]
  | case2 x xs ih =>
    intro c hc
    rw [chunksOf] at hc
    rcases List.mem_cons.mp hc with h | h
    · subst h; simp
    · exact ih c h

/-- Lift a binary operation to an `Option` accumulator so that a fold
with no identity element can be treated as an ordinary `foldl`. -/
def optApply (f : α → α → α) : Option α → α → Option α
  | none, x => some x
  | some a, x => some (f a x)

theorem foldl_optApply_some (f : α → α → α) :
    ∀ (l : List α) (a : α), l.foldl (optApply f) (some a) = some (l.foldl f a)
  | [], _ => rfl
  | x :: l, a => by
    simp only [List.foldl_cons, optApply]
    exact foldl_optApply_some f l (f a x)

theorem rightComm_optApply {f : α → α → α} (hA : Assoc f) (hC : Comm f) :
    RightCommutative (optApply f) := by
  refine ⟨fun o x y => ?_⟩
  cases o with
  | none => simp only [optApply]; rw [hC]
  | some a => simp only [optApply]; rw [hA, hA, hC x y]

theorem reduce1_perm [Inhabited α] {f : α → α → α} (hA : Assoc f) (hC : Comm f)
    {l₁ l₂ : List α} (p : l₁.Perm l₂) : reduce1 f l₁ = reduce1 f l₂ := by
  have := rightComm_optApply hA hC
  have h := p.foldl_eq (f := optApply f) (none : Option α)
  cases l₁ with
  | nil =>
    have : l₂ = [] := p.symm.eq_nil
    rw [this]
  | cons x xs =>
    cases l₂ with
    | nil => exact absurd p.eq_nil (by simp)
    | cons y ys =>
      simp only [List.foldl_cons, optApply, foldl_optApply_some] at h
      simpa [reduce1] using Option.some.inj h

theorem reduce1_chunksOf [Inhabited α] {f : α → α → α} (hA : Assoc f) (s : Nat)
    (l : List β) (g : β → α) :
    reduce1 f ((chunksOf s l).map (fun ch => reduce1 f (ch.map g))) = reduce1 f (l.map g) := by
  have h1 : (chunksOf s l).map (fun ch => reduce1 f (ch.map g))
      = ((chunksOf s l).map (fun ch => ch.map g)).map (reduce1 f) := by
    rw [List.map_map]; rfl
  have hne : ∀ c ∈ (chunksOf s l).map (fun ch => ch.map g), c ≠ [] := by
    intro c hc
    obtain ⟨ch, hch, rfl⟩ := List.mem_map.mp hc
    have := chunksOf_ne_nil s l ch hch
    simpa using this
  rw [h1, reduce1_flatten hA hne, ← List.map_flatten, chunksOf_flatten]

theorem evalD_sched_invariant [Inhabited α] (interp : ι → α → α → α)
    (store : String → String → List Nat → α) {s₁ s₂ : List α → List α}
    (hs₁ : SchedOK s₁) (hs₂ : SchedOK s₂) :
    ∀ n : Node ι, GoodOps interp n →
      ∀ ix, evalD interp store s₁ n ix = evalD interp store s₂ n ix := by
  intro n
  induction n with
  | leaf loc v ds szs cs => intro _ ix; rfl
  | ewise op a b iha ihb =>
    intro hg ix
    simp only [evalD]
    rw [iha hg.1 ix, ihb hg.2 ix]
  | reduceN op d a ih =>
    intro hg ix
    obtain ⟨⟨hA, hC⟩, hga⟩ := hg
    simp only [evalD]
    have hfun : (fun t : Nat => evalD interp store s₁ a (ix.insertIdx (posOf d a.dims) t))
        = (fun t : Nat => evalD interp store s₂ a (ix.insertIdx (posOf d a.dims) t)) :=
      funext fun t => ih hga _
    rw [hfun]
    exact reduce1_perm hA hC ((hs₁ _).trans (hs₂ _).symm)

theorem evalD_id_eq_naive [Inhabited α] (interp : ι → α → α → α)
    (store : String → String → List Nat → α) :
    ∀ n : Node ι, AssocOps interp n →
      ∀ ix, evalD interp store id n ix = evalNaive interp store n ix := by
  intro n
  induction n with
  | leaf loc v ds szs cs => intro _ ix; rfl
  | ewise op a b iha ihb =>
    intro hg ix
    simp only [evalD, evalNaive]
    rw [iha hg.1 ix, ihb hg.2 ix]
  | reduceN op d a ih =>
    intro hg ix
    obtain ⟨hA, hga⟩ := hg
    simp only [evalD, evalNaive, id_eq]
    have hfun : (fun t : Nat => evalD interp store id a (ix.insertIdx (posOf d a.dims) t))
        = (fun t : Nat => evalNaive interp store a (ix.insertIdx (posOf d a.dims) t)) :=
      funext fun t => ih hga _
    rw [hfun]
    exact reduce1_chunksOf hA _ _ _

/-! Claim theorems about materialized values. -/

/-- C1: for every pair of Lazy Arrays `A`, `B` of identical shape and
every elementwise operation `op`, materializing `elementwise(op, A, B)`
equals the pointwise application of `op` to `materialize(A)` and
`materialize(B)`. -/
theorem materialize_elementwise_pointwise [Inhabited α] (interp : ι → α → α → α)
    (store : String → String → List Nat → α) (sched : List α → List α)
    (op : ι) (a b w : Node ι)
    (hshape : a.dims = b.dims ∧ a.sizes = b.sizes)
    (hw : elementwise op a b = Except.ok w) :
    materializePure interp store sched w
      = pointwiseApply (interp op) (materializePure interp store sched a)
          (materializePure interp store sched b) := by
  have hw' : w = Node.ewise op a b := by
    simp only [elementwise, if_pos hshape] at hw
    exact (Except.ok.inj hw).symm
  subst hw'
  rfl

/-- Witness for C1 at the notebook's instance: `windspeed` is the
elementwise `sqrt(u^2 + v^2)` of the two wind-component leaves, and its
materialization is the pointwise combination of their
materializations. -/
theorem materialize_elementwise_pointwise_witness :
    (uLeaf.dims = vLeaf.dims ∧ uLeaf.sizes = vLeaf.sizes) ∧
    materializePure wInterp (fun _ _ _ => (3 : ℝ)) id windspeedNode
      = pointwiseApply (wInterp WOp.speed)
          (materializePure wInterp (fun _ _ _ => (3 : ℝ)) id uLeaf)
          (materializePure wInterp (fun _ _ _ => (3 : ℝ)) id vLeaf) :=
  ⟨⟨rfl, rfl⟩,
    materialize_elementwise_pointwise wInterp (fun _ _ _ => (3 : ℝ)) id WOp.speed
      uLeaf vLeaf windspeedNode ⟨rfl, rfl⟩ (by rfl)⟩

/-- C2: for every Lazy Array `A` and named dimension `d` present in `A`,
materializing `reduce(max, A, d)` equals the per-chunk partial reductions
combined across chunks, and the result is identical for every
permutation of chunk fetch completion order (any `SchedOK` schedule). -/
theorem materialize_reduce_perChunk_order_independent [Inhabited α]
    (interp : ι → α → α → α) (store : String → String → List Nat → α)
    (sched : List α → List α) (hsched : SchedOK sched)
    (op : ι) (d : String) (a : Node ι) (hd : d ∈ a.dims)
    (hA : Assoc (interp op)) (hC : Comm (interp op)) (hg : GoodOps interp a) :
    ∀ ix, (materializePure interp store sched (Node.reduceN op d a)).data ix
        = perChunkReduce interp store op d a ix := by
  intro ix
  have hgr : GoodOps interp (Node.reduceN op d a) := ⟨⟨hA, hC⟩, hg⟩
  calc (materializePure interp store sched (Node.reduceN op d a)).data ix
      = evalD interp store sched (Node.reduceN op d a) ix := rfl
    _ = evalD interp store id (Node.reduceN op d a) ix :=
        evalD_sched_invariant interp store hsched (fun l => List.Perm.refl l)
          (Node.reduceN op d a) hgr ix
    _ = perChunkReduce interp store op d a ix := rfl

/-- Witness for C2 at a concrete instance: an integer max-reduction over
the `time` dimension of a leaf, with the reversing schedule standing in
for an adversarial fetch completion order. -/
theorem materialize_reduce_perChunk_order_independent_witness :
    ("time" ∈ intLeaf.dims) ∧
    ∀ ix, (materializePure intMax (fun _ _ _ => (0 : ℤ)) List.reverse
            (Node.reduceN () "time" intLeaf)).data ix
        = perChunkReduce intMax (fun _ _ _ => (0 : ℤ)) () "time" intLeaf ix :=
  ⟨by decide,
    materialize_reduce_perChunk_order_independent intMax (fun _ _ _ => (0 : ℤ))
      List.reverse (fun l => List.reverse_perm l) () "time" intLeaf (by decide)
      (fun x y z => max_assoc x y z) (fun x y => max_comm x y) trivial⟩

/-- C8: for every array node and every chunking along the reduced
dimension recorded in it, the chunked map-then-reduce evaluation with
associative reduction operations produces exactly the same concrete
array as the naive unchunked reduction: chunk layout never affects the
materialized result. -/
theorem chunked_reduce_refines_naive [Inhabited α] (interp : ι → α → α → α)
    (store : String → String → List Nat → α) (n : Node ι)
    (hops : AssocOps interp n) :
    materializePure interp store id n = materializeNaive interp store n := by
  refine congrArg (ConcreteArray.mk n.dims n.sizes) ?_
  funext ix
  exact evalD_id_eq_naive interp store n hops ix

/-- Witness for C8 at a concrete instance: the integer max-reduction
over `time` of a time-chunked leaf materializes to the same concrete
array as the naive unchunked reduction. -/
theorem chunked_reduce_refines_naive_witness :
    materializePure intMax (fun _ _ _ => (0 : ℤ)) id (Node.reduceN () "time" intLeaf)
      = materializeNaive intMax (fun _ _ _ => (0 : ℤ)) (Node.reduceN () "time" intLeaf) :=
  chunked_reduce_refines_naive intMax (fun _ _ _ => (0 : ℤ))
    (Node.reduceN () "time" intLeaf) ⟨fun x y z => max_assoc x y z, trivial⟩

/-- C9: for every Lazy Array, two independent materializations over the
same immutable chunk store return equal concrete arrays, regardless of
the interleaving of chunk fetch completions in each run: materialization
is deterministic as a function of the graph and the stored chunks. -/
theorem materialize_deterministic [Inhabited α] (interp : ι → α → α → α)
    (store : String → String → List Nat → α) (s₁ s₂ : List α → List α)
    (hs₁ : SchedOK s₁) (hs₂ : SchedOK s₂) (n : Node ι) (hg : GoodOps interp n) :
    materializePure interp store s₁ n = materializePure interp store s₂ n := by
  refine congrArg (ConcreteArray.mk n.dims n.sizes) ?_
  funext ix
  exact evalD_sched_invariant interp store hs₁ hs₂ n hg ix

/-- Witness for C9 at a concrete instance: a run whose fetch completions
are reversed agrees with a run in canonical order. -/
theorem materialize_deterministic_witness :
    materializePure intMax (fun _ _ _ => (0 : ℤ)) List.reverse
        (Node.reduceN () "time" intLeaf)
      = materializePure intMax (fun _ _ _ => (0 : ℤ)) id
        (Node.reduceN () "time" intLeaf) :=
  materialize_deterministic intMax (fun _ _ _ => (0 : ℤ)) List.reverse id
    (fun l => List.reverse_perm l) (fun l => List.Perm.refl l)
    (Node.reduceN () "time" intLeaf)
    ⟨⟨fun x y z => max_assoc x y z, fun x y => max_comm x y⟩, trivial⟩

/-! Claim theorems about the instrumented materialization protocol. -/

theorem cacheLookup_cons_self [DecidableEq ι] (c : List (Node ι × ConcreteArray α))
    (n : Node ι) (v : ConcreteArray α) : cacheLookup ((n, v) :: c) n = some v := by
  simp [cacheLookup, List.find?_cons]

/-- C3: for every Lazy Array whose required chunks are all fetchable and
not yet cached, materializing twice in persisted mode returns
bit-identical results; the first call issues exactly the required chunk
set and the second call issues no fetches at all, the cached value keyed
by node identity being returned instead. -/
theorem materialize_persisted_idempotent [Inhabited α] [DecidableEq ι]
    (interp : ι → α → α → α) (store : Store α) (n : Node ι) (st₀ : MatState ι α)
    (hall : ∀ a ∈ requiredChunks n, store.okAddr a = true)
    (hmiss : cacheLookup st₀.cache n = none) :
    ∃ v, (materializeSt interp store Mode.persisted n st₀).1 = Except.ok v ∧
      (materializeSt interp store Mode.persisted n
        (materializeSt interp store Mode.persisted n st₀).2).1 = Except.ok v ∧
      (materializeSt interp store Mode.persisted n
        (materializeSt interp store Mode.persisted n st₀).2).2.fetchLog
        = (materializeSt interp store Mode.persisted n st₀).2.fetchLog ∧
      (materializeSt interp store Mode.persisted n st₀).2.fetchLog
        = st₀.fetchLog ++ requiredChunks n := by
  have hfind : (requiredChunks n).find? (fun a => !store.okAddr a) = none := by
    apply List.find?_eq_none.mpr
    intro a ha
    simp [hall a ha]
  have h1 : materializeSt interp store Mode.persisted n st₀
      = (Except.ok (materializePure interp store.val id n),
         { cache := (n, materializePure interp store.val id n) :: st₀.cache,
           fetchLog := st₀.fetchLog ++ requiredChunks n }) := by
    simp only [materializeSt, hmiss, hfind]
  have h2 : materializeSt interp store Mode.persisted n
      ({ cache := (n, materializePure interp store.val id n) :: st₀.cache,
         fetchLog := st₀.fetchLog ++ requiredChunks n } : MatState ι α)
      = (Except.ok (materializePure interp store.val id n),
         { cache := (n, materializePure interp store.val id n) :: st₀.cache,
           fetchLog := st₀.fetchLog ++ requiredChunks n }) := by
    simp only [materializeSt, cacheLookup_cons_self]
  refine ⟨materializePure interp store.val id n, ?_, ?_, ?_, ?_⟩
  · rw [h1]
  · rw [h1, h2]
  · rw [h1, h2]
  · rw [h1]

/-- Witness for C3 at a concrete instance: a leaf over a store on which
every fetch succeeds, starting from the empty state. -/
theorem materialize_persisted_idempotent_witness :
    (∀ a ∈ requiredChunks intLeaf, goodStore.okAddr a = true) ∧
    ∃ v, (materializeSt intMax goodStore Mode.persisted intLeaf emptyState).1 = Except.ok v ∧
      (materializeSt intMax goodStore Mode.persisted intLeaf
        (materializeSt intMax goodStore Mode.persisted intLeaf emptyState).2).1 = Except.ok v ∧
      (materializeSt intMax goodStore Mode.persisted intLeaf
        (materializeSt intMax goodStore Mode.persisted intLeaf emptyState).2).2.fetchLog
        = (materializeSt intMax goodStore Mode.persisted intLeaf emptyState).2.fetchLog ∧
      (materializeSt intMax goodStore Mode.persisted intLeaf emptyState).2.fetchLog
        = emptyState.fetchLog ++ requiredChunks intLeaf :=
  ⟨by decide,
    materialize_persisted_idempotent intMax goodStore intLeaf emptyState (by decide) rfl⟩

/-- C4: no graph-construction operation performs chunk I/O or changes
the materialization state: dataset open (manifest retrieval only),
variable lookup, elementwise arithmetic and reduction all leave the
cache and the chunk-fetch log untouched. -/
theorem construction_performs_no_io (store : Store α) (loc name : String)
    (h : DatasetHandle) (op : ι) (a b : Node ι) (d : String) (st : MatState ι α) :
    (openDataset store loc st).2 = st ∧
    (getVariable h name st).2 = st ∧
    (elementwiseC op a b st).2 = st ∧
    (reduceC op d a st).2 = st :=
  ⟨rfl, rfl, rfl, rfl⟩

/-- C5: for every Lazy Array not already cached, if at least one required
chunk fetch fails then materialize reports `ChunkFetchFailed` naming a
required chunk that indeed fails, returns no partial result, leaves the
cache untouched, and every other Lazy Array whose chunks are all
fetchable still materializes successfully afterwards. -/
theorem materialize_chunk_fetch_failure [Inhabited α] [DecidableEq ι]
    (interp : ι → α → α → α) (store : Store α) (mode : Mode) (n : Node ι)
    (st : MatState ι α)
    (hmiss : cacheLookup st.cache n = none)
    (hbad : ∃ a ∈ requiredChunks n, store.okAddr a = false) :
    ∃ a, (materializeSt interp store mode n st).1
        = Except.error (ArrError.ChunkFetchFailed a) ∧
      a ∈ requiredChunks n ∧ store.okAddr a = false ∧
      (materializeSt interp store mode n st).2.cache = st.cache ∧
      ∀ (m : Node ι) (mode₂ : Mode),
        (∀ b ∈ requiredChunks m, store.okAddr b = true) →
        ∃ v, (materializeSt interp store mode₂ m
              (materializeSt interp store mode n st).2).1 = Except.ok v := by
  obtain ⟨a₀, ha₀, hbad₀⟩ := hbad
  have hsome : ((requiredChunks n).find? (fun a => !store.okAddr a)).isSome := by
    rw [List.find?_isSome]
    exact ⟨a₀, ha₀, by simp [hbad₀]⟩
  obtain ⟨a, hfind⟩ := Option.isSome_iff_exists.mp hsome
  have hmem := List.mem_of_find?_eq_some hfind
  have hpa := List.find?_some hfind
  have hok : store.okAddr a = false := by simpa using hpa
  have h1 : materializeSt interp store mode n st
      = (Except.error (ArrError.ChunkFetchFailed a),
         { st with fetchLog := st.fetchLog ++ requiredChunks n }) := by
    simp only [materializeSt, hmiss, hfind]
  refine ⟨a, by rw [h1], hmem, hok, by rw [h1], ?_⟩
  intro m mode₂ hm
  rw [h1]
  cases hcm : cacheLookup ({ st with fetchLog := st.fetchLog ++ requiredChunks n } :
      MatState ι α).cache m with
  | some v => exact ⟨v, by simp only [materializeSt, hcm]⟩
  | none =>
    have hfind2 : (requiredChunks m).find? (fun b => !store.okAddr b) = none := by
      apply List.find?_eq_none.mpr
      intro b hb
      simp [hm b hb]
    exact ⟨materializePure interp store.val id m, by simp only [materializeSt, hcm, hfind2]⟩

/-- Witness for C5 at a concrete instance: a leaf over a store on which
every fetch fails, starting from the empty state. -/
theorem materialize_chunk_fetch_failure_witness :
    (cacheLookup emptyState.cache intLeaf = none) ∧
    (∃ a ∈ requiredChunks intLeaf, badStore.okAddr a = false) ∧
    ∃ a, (materializeSt intMax badStore Mode.ephemeral intLeaf emptyState).1
        = Except.error (ArrError.ChunkFetchFailed a) ∧
      a ∈ requiredChunks intLeaf ∧ badStore.okAddr a = false ∧
      (materializeSt intMax badStore Mode.ephemeral intLeaf emptyState).2.cache
        = emptyState.cache ∧
      ∀ (m : Node Unit) (mode₂ : Mode),
        (∀ b ∈ requiredChunks m, badStore.okAddr b = true) →
        ∃ v, (materializeSt intMax badStore mode₂ m
              (materializeSt intMax badStore Mode.ephemeral intLeaf emptyState).2).1
            = Except.ok v :=
  ⟨rfl, by decide,
    materialize_chunk_fetch_failure intMax badStore Mode.ephemeral intLeaf
      emptyState rfl (by decide)⟩

/-- C6: for every Dataset Handle and every name absent from its catalog,
variable lookup fails with `VariableNotFound`, performs zero chunk
fetches and has no side effect on the state. -/
theorem getVariable_absent_fails (h : DatasetHandle) (name : String)
    (st : MatState ι α) (habs : name ∉ h.catalog.map Prod.fst) :
    getVariable h name st = (Except.error (ArrError.VariableNotFound name), st) := by
  have hfind : h.catalog.find? (fun p => decide (p.1 = name)) = none := by
    apply List.find?_eq_none.mpr
    intro p hp
    simp only [decide_eq_true_eq]
    intro hcontra
    exact habs (hcontra ▸ List.mem_map_of_mem Prod.fst hp)
  simp only [getVariable, hfind]

/-- Witness for C6 at a concrete instance: looking up a nonexistent
variable in a one-variable catalog. -/
theorem getVariable_absent_fails_witness :
    ("nonexistent" ∉ sampleHandle.catalog.map Prod.fst) ∧
    getVariable sampleHandle "nonexistent" emptyState
      = (Except.error (ArrError.VariableNotFound "nonexistent"), emptyState) :=
  ⟨by decide, getVariable_absent_fails sampleHandle "nonexistent" emptyState (by decide)⟩

/-- C7: for every Lazy Array lacking a dimension named `dim`, reduction
along `dim` fails synchronously at the construction call with
`DimensionNotFound`, before any chunk fetch and with no state change —
the error is never deferred to materialize. -/
theorem reduce_missing_dim_fails (op : ι) (d : String) (a : Node ι)
    (st : MatState ι α) (habs : d ∉ a.dims) :
    reduceC op d a st = (Except.error (ArrError.DimensionNotFound d), st) := by
  simp only [reduceC, reduce, if_neg habs]

/-- Witness for C7 at a concrete instance: reducing over a dimension the
leaf does not have. -/
theorem reduce_missing_dim_fails_witness :
    ("height" ∉ intLeaf.dims) ∧
    reduceC () "height" intLeaf emptyState
      = (Except.error (ArrError.DimensionNotFound "height"), emptyState) :=
  ⟨by decide, reduce_missing_dim_fails () "height" intLeaf emptyState (by decide)⟩

/-! Claim theorems about the notebook's windspeed computation over ℝ. -/

theorem le_foldl_max : ∀ (l : List ℝ) (a : ℝ), a ≤ l.foldl (fun x y => max x y) a
  | [], a => le_refl a
  | b :: l, a => le_trans (le_max_left a b) (le_foldl_max l (max a b))

theorem reduce1_max_nonneg {l : List ℝ} (h : ∀ x ∈ l, 0 ≤ x) :
    0 ≤ reduce1 (fun x y : ℝ => max x y) l := by
  cases l with
  | nil => exact le_of_eq rfl
  | cons x xs => exact le_trans (h x (by simp)) (le_foldl_max xs x)

/-- C10: for every pair of input arrays `u` and `v`, every element of
the materialized windspeed array `sqrt(u^2 + v^2)` is nonnegative, and
consequently every element of the time-maximum `wind_max` is
nonnegative. -/
theorem windspeed_nonneg (u v : Node WOp)
    (store : String → String → List Nat → ℝ) (sched : List ℝ → List ℝ)
    (hs : SchedOK sched) :
    (∀ ix, 0 ≤ (materializePure wInterp store sched (Node.ewise WOp.speed u v)).data ix) ∧
    (∀ ix, 0 ≤ (materializePure wInterp store sched
        (Node.reduceN WOp.maxW "time" (Node.ewise WOp.speed u v))).data ix) := by
  have hew : ∀ ix, 0 ≤ evalD wInterp store sched (Node.ewise WOp.speed u v) ix := by
    intro ix
    show 0 ≤ Real.sqrt _
    exact Real.sqrt_nonneg _
  refine ⟨hew, ?_⟩
  intro ix
  show 0 ≤ reduce1 (fun x y : ℝ => max x y) (sched _)
  apply reduce1_max_nonneg
  intro x hx
  rw [(hs _).mem_iff] at hx
  obtain ⟨ch, hch, rfl⟩ := List.mem_map.mp hx
  apply reduce1_max_nonneg
  intro y hy
  obtain ⟨t, ht, rfl⟩ := List.mem_map.mp hy
  exact hew _

/-- Witness for C10 at the notebook's graph over a concrete store with
all wind components equal to 3. -/
theorem windspeed_nonneg_witness :
    (∀ ix, 0 ≤ (materializePure wInterp (fun _ _ _ => (3 : ℝ)) id windspeedNode).data ix) ∧
    (∀ ix, 0 ≤ (materializePure wInterp (fun _ _ _ => (3 : ℝ)) id windMaxNode).data ix) :=
  windspeed_nonneg uLeaf vLeaf (fun _ _ _ => (3 : ℝ)) id (fun l => List.Perm.refl l)

end LazyZarr
